import Mathlib

/-!
Verification of the `priority-queue` crate: a generic binary-heap priority
queue (`PriorityQueue<T, F>`) storing its elements in a `Vec<T>` together
with a comparison predicate `cmp : (&T, &T) -> bool`.

The heap contents are modelled as a `List α` and every operation is
parametrised by the comparison function `cmp : α → α → Bool`, mirroring the
Rust methods `new`, `with_ordering`, `insert`, `take_front`, `heapify` and
`sift_down` of `src/lib.rs`.  Indices are `Nat`; the single place where the
Rust code relies on `usize` wrap-around (`i.wrapping_sub(1) / 2` in
`insert`) is modelled explicitly modulo `2 ^ 64`.
-/

namespace PriorityQueue

/-- Number of values of the 64-bit `usize` type. -/
def USIZE : Nat := 2 ^ 64

/-- `(i.wrapping_sub(1)) / 2`: the parent-index computation of `insert`,
with the wrap-around of `usize` subtraction made explicit. -/
def parentWrap (i : Nat) : Nat := ((i + (USIZE - 1)) % USIZE) / 2

/-- Parent index `(i - 1) / 2` of a non-root node, as in the heap invariant. -/
def pidx (i : Nat) : Nat := (i - 1) / 2

theorem uSIZE_pos : 0 < USIZE := Nat.two_pow_pos 64

theorem parentWrap_eq_pidx (i : Nat) (h0 : i ≠ 0) (h : i < USIZE) :
    parentWrap i = pidx i := by
  unfold parentWrap pidx
  have h1 : i + (USIZE - 1) = (i - 1) + USIZE := by
    have := uSIZE_pos; omega
  rw [h1, Nat.add_mod_right, Nat.mod_eq_of_lt (by omega)]

theorem parentWrap_lt (i : Nat) (h0 : i ≠ 0) : parentWrap i < i := by
  rcases Nat.lt_or_ge i USIZE with h | h
  · rw [parentWrap_eq_pidx i h0 h]; unfold pidx; omega
  · have h2 : (i + (USIZE - 1)) % USIZE < USIZE := Nat.mod_lt _ uSIZE_pos
    unfold parentWrap; omega

/-- `cmp(&heap[i], &heap[j])` totalized: out-of-range indices give `false`.
Every use in the algorithms is in range (see the checked variants below). -/
def cmpAt (cmp : α → α → Bool) (l : List α) (i j : Nat) : Bool :=
  match l[i]?, l[j]? with
  | some a, some b => cmp a b
  | _, _ => false

/-- `self.heap.swap(i, j)` totalized: identity at out-of-range indices. -/
def listSwap (l : List α) (i j : Nat) : List α :=
  match l[i]?, l[j]? with
  | some a, some b => (l.set i b).set j a
  | _, _ => l

theorem length_listSwap (l : List α) (i j : Nat) :
    (listSwap l i j).length = l.length := by
  unfold listSwap
  cases hi : l[i]? <;> cases hj : l[j]? <;> simp

/-- The loop condition of `sift_down`:
`left < len && cmp(&heap[left], &heap[i]) || right < len && cmp(&heap[right], &heap[i])`. -/
def siftDownGuard (cmp : α → α → Bool) (l : List α) (i : Nat) : Bool :=
  (decide (i * 2 + 1 < l.length) && cmpAt cmp l (i * 2 + 1) i)
    || (decide (i * 2 + 2 < l.length) && cmpAt cmp l (i * 2 + 2) i)

/-- The child index `smallest` selected by the body of `sift_down`. -/
def smallestChild (cmp : α → α → Bool) (l : List α) (i : Nat) : Nat :=
  if i * 2 + 2 < l.length then
    if cmpAt cmp l (i * 2 + 1) (i * 2 + 2) then i * 2 + 1 else i * 2 + 2
  else i * 2 + 1

theorem lt_smallestChild (cmp : α → α → Bool) (l : List α) (i : Nat) :
    i < smallestChild cmp l i := by
  unfold smallestChild
  split <;> [skip; omega]
  split <;> omega

theorem siftDownGuard_left_lt {cmp : α → α → Bool} {l : List α} {i : Nat}
    (h : siftDownGuard cmp l i = true) : i * 2 + 1 < l.length := by
  unfold siftDownGuard at h
  simp only [Bool.or_eq_true, Bool.and_eq_true, decide_eq_true_eq] at h
  omega

/-- `fn sift_down(&mut self, mut i: usize)` as a recursive function: one
recursive call per iteration of the `while` loop. -/
def siftDown (cmp : α → α → Bool) (l : List α) (i : Nat) : List α :=
  if h : siftDownGuard cmp l i = true then
    siftDown cmp (listSwap l i (smallestChild cmp l i)) (smallestChild cmp l i)
  else l
termination_by l.length - i
decreasing_by
  have h1 := siftDownGuard_left_lt h
  have h2 := lt_smallestChild cmp l i
  simp only [length_listSwap]
  omega

/-- The sift-up loop of `insert` as a recursive function.  At each loop
check the Rust variable `parent` holds `(i.wrapping_sub(1)) / 2` (it is
initialised with `wrapping_sub` and re-computed from the current `i` at the
end of each iteration), so the loop is a function of `i` alone. -/
def siftUp (cmp : α → α → Bool) (l : List α) (i : Nat) : List α :=
  if h : i ≠ 0 ∧ cmpAt cmp l i (parentWrap i) = true then
    siftUp cmp (listSwap l i (parentWrap i)) (parentWrap i)
  else l
termination_by i
decreasing_by exact parentWrap_lt i h.1

/-- `pub fn insert(&mut self, element: T)`: push, then sift the new last
element up. -/
def insert (cmp : α → α → Bool) (l : List α) (x : α) : List α :=
  siftUp cmp (l ++ [x]) ((l ++ [x]).length - 1)

/-- `pub fn take_front(&mut self) -> Option<T>`: swap root and last, pop the
last element, sift the new root down.  Returns the popped value and the new
heap contents. -/
def take_front (cmp : α → α → Bool) (l : List α) : Option α × List α :=
  if l.isEmpty then (none, l)
  else
    match (listSwap l 0 (l.length - 1)).getLast? with
    | none => (none, listSwap l 0 (l.length - 1))
    | some v => (some v, siftDown cmp (listSwap l 0 (l.length - 1)).dropLast 0)

/-- `fn heapify(&mut self)`: `for i in (0..len).rev() { sift_down(i) }`.
`heapifyLoop cmp l n` runs `sift_down` at indices `n-1, n-2, …, 0`. -/
def heapifyLoop (cmp : α → α → Bool) (l : List α) : Nat → List α
  | 0 => l
  | n + 1 => heapifyLoop cmp (siftDown cmp l n) n

/-- `heapify` sifts down every index from `len - 1` down to `0`. -/
def heapify (cmp : α → α → Bool) (l : List α) : List α := heapifyLoop cmp l l.length

/-- `pub fn with_ordering(data: Vec<T>, ordering: F) -> Self`: take the data
as the backing storage and heapify it. -/
def with_ordering (cmp : α → α → Bool) (data : List α) : List α := heapify cmp data

/-- `pub fn new(data: Vec<T>) -> Self` for `T: PartialOrd`: ordering is
`|a, b| a < b`. -/
def new [LT α] [DecidableRel ((· < ·) : α → α → Prop)] (data : List α) : List α :=
  with_ordering (fun a b => decide (a < b)) data

/-- The results of `n` successive `take_front` calls. -/
def takeFrontSeq (cmp : α → α → Bool) (l : List α) : Nat → List (Option α)
  | 0 => []
  | n + 1 => (take_front cmp l).1 :: takeFrontSeq cmp (take_front cmp l).2 n

/-- Repeated extraction, stopping at the first absent result; `n` bounds the
number of extractions. -/
def drainFuel (cmp : α → α → Bool) (l : List α) : Nat → List α
  | 0 => []
  | n + 1 =>
    match take_front cmp l with
    | (none, _) => []
    | (some v, l2) => v :: drainFuel cmp l2 n

/-- Drain the heap completely by repeated `take_front`. -/
def drain (cmp : α → α → Bool) (l : List α) : List α := drainFuel cmp l l.length

/-- The heap-order invariant: no element is `cmp`-less than its parent. -/
def isHeap (cmp : α → α → Bool) (l : List α) : Prop :=
  ∀ i, 0 < i → i < l.length → cmpAt cmp l i (pidx i) = false

/-- A strict-weak-ordering predicate: irreflexive, transitive, and with
transitive complement (for a strict weak order, transitivity of the
incomparability relation is equivalent to the third clause). -/
def SWO (cmp : α → α → Bool) : Prop :=
  (∀ a, cmp a a = false) ∧
  (∀ a b c, cmp a b = true → cmp b c = true → cmp a c = true) ∧
  (∀ a b c, cmp a b = false → cmp b c = false → cmp a c = false)

/-! ### Basic lemmas about `listSwap` -/

theorem listSwap_eq_self_left {l : List α} {i : Nat} (hi : l.length ≤ i) (j : Nat) :
    listSwap l i j = l := by
  unfold listSwap
  rw [List.getElem?_eq_none hi]

theorem listSwap_eq_self_right {l : List α} {j : Nat} (i : Nat) (hj : l.length ≤ j) :
    listSwap l i j = l := by
  unfold listSwap
  rw [List.getElem?_eq_none hj]
  cases l[i]? <;> rfl

theorem getElem?_listSwap {l : List α} {i j : Nat} (hi : i < l.length)
    (hj : j < l.length) (k : Nat) :
    (listSwap l i j)[k]? = if k = j then l[i]? else if k = i then l[j]? else l[k]? := by
  unfold listSwap
  rw [List.getElem?_eq_getElem hi, List.getElem?_eq_getElem hj]
  by_cases hkj : k = j
  · subst hkj
    rw [if_pos rfl, List.getElem?_set_self (by simp; omega)]
  · by_cases hki : k = i
    · subst hki
      rw [if_neg hkj, if_pos rfl, List.getElem?_set_ne (by omega),
        List.getElem?_set_self hi]
    · rw [if_neg hkj, if_neg hki, List.getElem?_set_ne (by omega),
        List.getElem?_set_ne (by omega)]

theorem cons_set_perm : ∀ (l : List α) (j : Nat) (b x : α),
    l[j]? = some b → List.Perm (b :: l.set j x) (x :: l) := by
  intro l
  induction l with
  | nil => intro j b x h; simp at h
  | cons y t ih =>
    intro j b x h
    match j with
    | 0 =>
      simp at h
      subst h
      exact List.Perm.swap x y t
    | k + 1 =>
      simp only [List.getElem?_cons_succ] at h
      simp only [List.set_cons_succ]
      exact ((List.Perm.swap y b _).trans (((ih k b x h).cons y))).trans
        (List.Perm.swap x y t)

theorem listSwap_perm (l : List α) (i j : Nat) : List.Perm (listSwap l i j) l := by
  rcases hhi : l[i]? with _ | a
  · unfold listSwap
    rw [hhi]
  · rcases hhj : l[j]? with _ | b
    · unfold listSwap
      rw [hhi, hhj]
    · have hi : i < l.length := by
        by_contra hc
        rw [List.getElem?_eq_none (by omega)] at hhi
        exact absurd hhi (by simp)
      have hsetj : (l.set i b)[j]? = some b := by
        by_cases hij : i = j
        · subst hij
          exact List.getElem?_set_self (by
            by_contra hc
            rw [List.getElem?_eq_none (by omega)] at hhj
            exact absurd hhj (by simp))
        · rw [List.getElem?_set_ne hij]
          exact hhj
      have h1 : List.Perm (b :: (l.set i b).set j a) (a :: l.set i b) :=
        cons_set_perm _ j b a hsetj
      have h2 : List.Perm (a :: l.set i b) (b :: l) := cons_set_perm l i a b hhi
      have h4 : listSwap l i j = (l.set i b).set j a := by
        unfold listSwap
        rw [hhi, hhj]
      rw [h4]
      exact (h1.trans h2).cons_inv

/-! ### Length and permutation lemmas for the heap operations -/

theorem length_siftDown (cmp : α → α → Bool) (l : List α) (i : Nat) :
    (siftDown cmp l i).length = l.length := by
  induction l, i using siftDown.induct cmp with
  | case1 l i h ih => rw [siftDown, dif_pos h, ih, length_listSwap]
  | case2 l i h => rw [siftDown, dif_neg h]

theorem siftDown_perm (cmp : α → α → Bool) (l : List α) (i : Nat) :
    List.Perm (siftDown cmp l i) l := by
  induction l, i using siftDown.induct cmp with
  | case1 l i h ih =>
    rw [siftDown, dif_pos h]
    exact ih.trans (listSwap_perm l i _)
  | case2 l i h => rw [siftDown, dif_neg h]

theorem length_siftUp (cmp : α → α → Bool) (l : List α) (i : Nat) :
    (siftUp cmp l i).length = l.length := by
  induction l, i using siftUp.induct cmp with
  | case1 l i h ih => rw [siftUp, dif_pos h, ih, length_listSwap]
  | case2 l i h => rw [siftUp, dif_neg h]

theorem siftUp_perm (cmp : α → α → Bool) (l : List α) (i : Nat) :
    List.Perm (siftUp cmp l i) l := by
  induction l, i using siftUp.induct cmp with
  | case1 l i h ih =>
    rw [siftUp, dif_pos h]
    exact ih.trans (listSwap_perm l i _)
  | case2 l i h => rw [siftUp, dif_neg h]

theorem length_heapifyLoop (cmp : α → α → Bool) :
    ∀ (n : Nat) (l : List α), (heapifyLoop cmp l n).length = l.length := by
  intro n
  induction n with
  | zero => intro l; rfl
  | succ n ih => intro l; rw [heapifyLoop, ih, length_siftDown]

theorem heapifyLoop_perm (cmp : α → α → Bool) :
    ∀ (n : Nat) (l : List α), List.Perm (heapifyLoop cmp l n) l := by
  intro n
  induction n with
  | zero => intro l; exact List.Perm.refl l
  | succ n ih =>
    intro l
    exact (ih (siftDown cmp l n)).trans (siftDown_perm cmp l n)

theorem length_heapify (cmp : α → α → Bool) (l : List α) :
    (heapify cmp l).length = l.length := length_heapifyLoop cmp l.length l

theorem heapify_perm (cmp : α → α → Bool) (l : List α) :
    List.Perm (heapify cmp l) l := heapifyLoop_perm cmp l.length l

theorem length_insert (cmp : α → α → Bool) (l : List α) (x : α) :
    (insert cmp l x).length = l.length + 1 := by
  unfold insert
  rw [length_siftUp]
  simp

theorem insert_perm (cmp : α → α → Bool) (l : List α) (x : α) :
    List.Perm (insert cmp l x) (l ++ [x]) := siftUp_perm cmp (l ++ [x]) _

theorem take_front_nil (cmp : α → α → Bool) :
    take_front cmp ([] : List α) = (none, []) := rfl

theorem getLast?_listSwap_zero (l : List α) (h : l ≠ []) :
    (listSwap l 0 (l.length - 1)).getLast? = l[0]? := by
  have hl : 0 < l.length := List.length_pos.mpr h
  rw [List.getLast?_eq_getElem?, length_listSwap,
    getElem?_listSwap hl (by omega), if_pos rfl]

theorem take_front_of_ne_nil (cmp : α → α → Bool) {l : List α} (h : l ≠ []) :
    take_front cmp l
      = (l[0]?, siftDown cmp (listSwap l 0 (l.length - 1)).dropLast 0) := by
  have hl : 0 < l.length := List.length_pos.mpr h
  unfold take_front
  rw [if_neg (by simp [h])]
  rw [getLast?_listSwap_zero l h, List.getElem?_eq_getElem hl]

theorem length_take_front_snd (cmp : α → α → Bool) (l : List α) :
    (take_front cmp l).2.length = l.length - 1 := by
  by_cases h : l = []
  · subst h; rfl
  · rw [take_front_of_ne_nil cmp h]
    simp [length_siftDown, length_listSwap]

theorem take_front_perm (cmp : α → α → Bool) (l : List α) :
    List.Perm ((take_front cmp l).2 ++ (take_front cmp l).1.toList) l := by
  by_cases h : l = []
  · subst h; exact List.Perm.refl []
  · have hl : 0 < l.length := List.length_pos.mpr h
    rw [take_front_of_ne_nil cmp h]
    have hsw : listSwap l 0 (l.length - 1) ≠ [] := by
      intro hc
      have := length_listSwap l 0 (l.length - 1)
      rw [hc] at this
      simp at this
      omega
    have hlast : (listSwap l 0 (l.length - 1)).getLast hsw = l[0] := by
      have h1 := List.getLast?_eq_getLast _ hsw
      rw [getLast?_listSwap_zero l h, List.getElem?_eq_getElem hl] at h1
      exact (Option.some_injective _ h1).symm
    have hsplit : (listSwap l 0 (l.length - 1)).dropLast ++ [l[0]]
        = listSwap l 0 (l.length - 1) := by
      rw [← hlast]
      exact List.dropLast_concat_getLast hsw
    rw [List.getElem?_eq_getElem hl]
    simp only [Option.toList_some]
    have p1 : List.Perm
        (siftDown cmp (listSwap l 0 (l.length - 1)).dropLast 0 ++ [l[0]])
        ((listSwap l 0 (l.length - 1)).dropLast ++ [l[0]]) :=
      (siftDown_perm cmp _ 0).append_right _
    rw [hsplit] at p1
    exact p1.trans (listSwap_perm l 0 (l.length - 1))

/-! ### Strict-weak-ordering consequences and `cmpAt` reasoning -/

theorem sWO_asymm {cmp : α → α → Bool} (hswo : SWO cmp) {a b : α}
    (h : cmp a b = true) : cmp b a = false := by
  cases hba : cmp b a
  · rfl
  · have h2 := hswo.2.1 a b a h hba
    rw [hswo.1 a] at h2
    exact absurd h2 (by simp)

theorem cmpAt_eq {cmp : α → α → Bool} {l : List α} {i j : Nat}
    (hi : i < l.length) (hj : j < l.length) :
    cmpAt cmp l i j = cmp (l[i]) (l[j]) := by
  unfold cmpAt
  rw [List.getElem?_eq_getElem hi, List.getElem?_eq_getElem hj]

theorem cmpAt_congr {cmp : α → α → Bool} {l1 l2 : List α} {j1 m1 j2 m2 : Nat}
    (h1 : l1[j1]? = l2[j2]?) (h2 : l1[m1]? = l2[m2]?) :
    cmpAt cmp l1 j1 m1 = cmpAt cmp l2 j2 m2 := by
  unfold cmpAt
  rw [h1, h2]

theorem cmpAt_asymm {cmp : α → α → Bool} (hswo : SWO cmp) {l : List α} {i j : Nat}
    (hi : i < l.length) (hj : j < l.length) (h : cmpAt cmp l i j = true) :
    cmpAt cmp l j i = false := by
  rw [cmpAt_eq hi hj] at h
  rw [cmpAt_eq hj hi]
  exact sWO_asymm hswo h

theorem cmpAt_trans {cmp : α → α → Bool} (hswo : SWO cmp) {l : List α} {i j m : Nat}
    (hi : i < l.length) (hj : j < l.length) (hm : m < l.length)
    (h1 : cmpAt cmp l i j = true) (h2 : cmpAt cmp l j m = true) :
    cmpAt cmp l i m = true := by
  rw [cmpAt_eq hi hj] at h1
  rw [cmpAt_eq hj hm] at h2
  rw [cmpAt_eq hi hm]
  exact hswo.2.1 _ _ _ h1 h2

theorem cmpAt_negTrans {cmp : α → α → Bool} (hswo : SWO cmp) {l : List α} {i j m : Nat}
    (hi : i < l.length) (hj : j < l.length) (hm : m < l.length)
    (h1 : cmpAt cmp l i j = false) (h2 : cmpAt cmp l j m = false) :
    cmpAt cmp l i m = false := by
  rw [cmpAt_eq hi hj] at h1
  rw [cmpAt_eq hj hm] at h2
  rw [cmpAt_eq hi hm]
  exact hswo.2.2 _ _ _ h1 h2

theorem siftDownGuard_true_elim {cmp : α → α → Bool} {l : List α} {i : Nat}
    (hg : siftDownGuard cmp l i = true) :
    (i * 2 + 1 < l.length ∧ cmpAt cmp l (i * 2 + 1) i = true)
      ∨ (i * 2 + 2 < l.length ∧ cmpAt cmp l (i * 2 + 2) i = true) := by
  unfold siftDownGuard at hg
  simp only [Bool.or_eq_true, Bool.and_eq_true, decide_eq_true_eq] at hg
  exact hg

theorem siftDownGuard_false_elim {cmp : α → α → Bool} {l : List α} {i : Nat}
    (hg : siftDownGuard cmp l i = false) :
    (i * 2 + 1 < l.length → cmpAt cmp l (i * 2 + 1) i = false)
      ∧ (i * 2 + 2 < l.length → cmpAt cmp l (i * 2 + 2) i = false) := by
  constructor
  · intro hlt
    cases h1 : cmpAt cmp l (i * 2 + 1) i
    · rfl
    · exfalso
      unfold siftDownGuard at hg
      rw [h1] at hg
      simp [hlt] at hg
  · intro hlt
    cases h1 : cmpAt cmp l (i * 2 + 2) i
    · rfl
    · exfalso
      unfold siftDownGuard at hg
      rw [h1] at hg
      simp [hlt] at hg

/-- The child selected by `sift_down` is in range, is a child of `i`, is
strictly less than the element at `i`, and the other child (if any) is not
less than it. -/
theorem smallestChild_spec {cmp : α → α → Bool} (hswo : SWO cmp) {l : List α}
    {i : Nat} (hg : siftDownGuard cmp l i = true) :
    smallestChild cmp l i < l.length ∧
    pidx (smallestChild cmp l i) = i ∧
    cmpAt cmp l (smallestChild cmp l i) i = true ∧
    (∀ s, 0 < s → s < l.length → pidx s = i → s ≠ smallestChild cmp l i →
      cmpAt cmp l s (smallestChild cmp l i) = false) := by
  have hL : i * 2 + 1 < l.length := siftDownGuard_left_lt hg
  have hI : i < l.length := by omega
  have hgd := siftDownGuard_true_elim hg
  by_cases hR : i * 2 + 2 < l.length
  · by_cases hLR : cmpAt cmp l (i * 2 + 1) (i * 2 + 2) = true
    · have hc : smallestChild cmp l i = i * 2 + 1 := by
        simp [smallestChild, hR, hLR]
      rw [hc]
      refine ⟨hL, by unfold pidx; omega, ?_, ?_⟩
      · rcases hgd with ⟨_, h1⟩ | ⟨_, h2⟩
        · exact h1
        · exact cmpAt_trans hswo hL hR hI hLR h2
      · intro s hs0 hs hps hsne
        have hseq : s = i * 2 + 2 := by unfold pidx at hps; omega
        subst hseq
        exact cmpAt_asymm hswo hL hR hLR
    · have hLR' : cmpAt cmp l (i * 2 + 1) (i * 2 + 2) = false := by
        revert hLR
        cases cmpAt cmp l (i * 2 + 1) (i * 2 + 2) <;> simp
      have hc : smallestChild cmp l i = i * 2 + 2 := by
        simp [smallestChild, hR, hLR']
      rw [hc]
      refine ⟨hR, by unfold pidx; omega, ?_, ?_⟩
      · by_cases hRi : cmpAt cmp l (i * 2 + 2) i = true
        · exact hRi
        · have hRi' : cmpAt cmp l (i * 2 + 2) i = false := by
            revert hRi
            cases cmpAt cmp l (i * 2 + 2) i <;> simp
          rcases hgd with ⟨_, h1⟩ | ⟨_, h2⟩
          · have h3 := cmpAt_negTrans hswo hL hR hI hLR' hRi'
            rw [h1] at h3
            exact absurd h3 (by simp)
          · rw [hRi'] at h2
            exact absurd h2 (by simp)
      · intro s hs0 hs hps hsne
        have hseq : s = i * 2 + 1 := by unfold pidx at hps; omega
        subst hseq
        exact hLR'
  · have hc : smallestChild cmp l i = i * 2 + 1 := by
      simp [smallestChild, hR]
    rw [hc]
    refine ⟨hL, by unfold pidx; omega, ?_, ?_⟩
    · rcases hgd with ⟨_, h1⟩ | ⟨h2, _⟩
      · exact h1
      · exact absurd h2 hR
    · intro s hs0 hs hps hsne
      have hseq : s = i * 2 + 2 := by unfold pidx at hps; omega
      omega

/-- Central invariant lemma for `sift_down`: if every edge whose parent
index is at least `k` and different from `i` satisfies the heap relation,
and the children of `i` are not less than the parent of `i` (when that
parent has index at least `k`), then after `sift_down(i)` every edge with
parent index at least `k` satisfies the heap relation. -/
theorem siftDown_invariant {cmp : α → α → Bool} (hswo : SWO cmp) (k : Nat)
    (l : List α) (i : Nat) :
    k ≤ i →
    (∀ j, 0 < j → j < l.length → k ≤ pidx j → pidx j ≠ i →
      cmpAt cmp l j (pidx j) = false) →
    (∀ c, c < l.length → i ≠ 0 → pidx c = i → k ≤ pidx i →
      cmpAt cmp l c (pidx i) = false) →
    ∀ j, 0 < j → j < l.length → k ≤ pidx j →
      cmpAt cmp (siftDown cmp l i) j (pidx j) = false := by
  induction l, i using siftDown.induct cmp with
  | case2 l i hg =>
    intro hki ha hb j hj0 hjl hkj
    rw [siftDown, dif_neg hg]
    by_cases hpj : pidx j = i
    · have hg' : siftDownGuard cmp l i = false := by
        revert hg
        cases siftDownGuard cmp l i <;> simp
      have hch := siftDownGuard_false_elim hg'
      have hj2 : j = i * 2 + 1 ∨ j = i * 2 + 2 := by unfold pidx at hpj; omega
      rw [hpj]
      rcases hj2 with hje | hje <;> subst hje
      · exact hch.1 hjl
      · exact hch.2 hjl
    · exact ha j hj0 hjl hkj hpj
  | case1 l i hg ih =>
    intro hki ha hb j hj0 hjl hkj
    obtain ⟨hcl, hpc, hkey1, hkey2⟩ := smallestChild_spec hswo hg
    set c := smallestChild cmp l i with hcdef
    have hic : i < c := lt_smallestChild cmp l i
    have hI : i < l.length := by omega
    have hswap := fun m => getElem?_listSwap hI hcl m
    have eii : (listSwap l i c)[i]? = l[c]? := by
      rw [hswap i, if_neg (by omega), if_pos rfl]
    have ecc : (listSwap l i c)[c]? = l[i]? := by
      rw [hswap c, if_pos rfl]
    have eother : ∀ m, m ≠ i → m ≠ c → (listSwap l i c)[m]? = l[m]? := by
      intro m h1 h2
      rw [hswap m, if_neg h2, if_neg h1]
    have ha' : ∀ j, 0 < j → j < (listSwap l i c).length → k ≤ pidx j →
        pidx j ≠ c → cmpAt cmp (listSwap l i c) j (pidx j) = false := by
      intro j hj0 hjl hkj hpjc
      rw [length_listSwap] at hjl
      by_cases hpji : pidx j = i
      · by_cases hjc : j = c
        · subst hjc
          rw [hpji, cmpAt_congr ecc eii]
          exact cmpAt_asymm hswo hcl hI hkey1
        · have hji : j ≠ i := by
            unfold pidx at hpji; omega
          rw [hpji, cmpAt_congr (eother j hji hjc) eii]
          exact hkey2 j hj0 hjl hpji hjc
      · by_cases hji : j = i
        · subst hji
          have hpi_lt : pidx j < j := by unfold pidx; omega
          have e2 : (listSwap l j c)[pidx j]? = l[pidx j]? :=
            eother (pidx j) (by omega) (by omega)
          rw [cmpAt_congr eii e2]
          exact hb c hcl (by omega) hpc hkj
        · by_cases hjc : j = c
          · exact absurd (hjc ▸ hpc) hpji
          · have e2 : (listSwap l i c)[pidx j]? = l[pidx j]? :=
              eother (pidx j) hpji hpjc
            rw [cmpAt_congr (eother j hji hjc) e2]
            exact ha j hj0 hjl hkj hpji
    have hb' : ∀ d, d < (listSwap l i c).length → c ≠ 0 → pidx d = c →
        k ≤ pidx c → cmpAt cmp (listSwap l i c) d (pidx c) = false := by
      intro d hdl hc0 hpd hkc
      rw [length_listSwap] at hdl
      rw [hpc]
      have hd0 : 0 < d := by
        unfold pidx at hpd; omega
      have hdc : d ≠ c := by
        unfold pidx at hpd; omega
      have hdi : d ≠ i := by
        unfold pidx at hpd; omega
      rw [cmpAt_congr (eother d hdi hdc) eii]
      have h4 := ha d hd0 hdl (by rw [hpd]; omega) (by rw [hpd]; omega)
      rw [hpd] at h4
      exact h4
    rw [siftDown, dif_pos hg]
    exact ih (by omega) ha' hb' j hj0 (by rw [length_listSwap]; exact hjl) hkj

/-! ### The heap invariant is established by `heapify` and preserved by the
public operations -/

theorem heapifyLoop_invariant {cmp : α → α → Bool} (hswo : SWO cmp) :
    ∀ (n : Nat) (l : List α),
    (∀ j, 0 < j → j < l.length → n ≤ pidx j → cmpAt cmp l j (pidx j) = false) →
    isHeap cmp (heapifyLoop cmp l n) := by
  intro n
  induction n with
  | zero =>
    intro l h j hj0 hjl
    exact h j hj0 hjl (Nat.zero_le _)
  | succ n ih =>
    intro l h
    rw [heapifyLoop]
    apply ih
    have h2 := siftDown_invariant hswo n l n (Nat.le_refl n)
      (fun j hj0 hjl hkj hne => h j hj0 hjl (by omega))
      (fun c hcl hn0 hpc hnp => by
        exfalso
        unfold pidx at hnp
        omega)
    intro j hj0 hjl hkj
    rw [length_siftDown] at hjl
    exact h2 j hj0 hjl hkj

theorem isHeap_heapify {cmp : α → α → Bool} (hswo : SWO cmp) (l : List α) :
    isHeap cmp (heapify cmp l) := by
  apply heapifyLoop_invariant hswo
  intro j hj0 hjl hkj
  exfalso
  unfold pidx at hkj
  omega

theorem isHeap_nil (cmp : α → α → Bool) : isHeap cmp ([] : List α) := by
  intro j hj0 hjl
  simp at hjl

theorem isHeap_take_front_snd {cmp : α → α → Bool} (hswo : SWO cmp)
    {l : List α} (hh : isHeap cmp l) : isHeap cmp (take_front cmp l).2 := by
  by_cases h : l = []
  · subst h
    exact isHeap_nil cmp
  · have hl : 0 < l.length := List.length_pos.mpr h
    rw [take_front_of_ne_nil cmp h]
    have hlen2 : (listSwap l 0 (l.length - 1)).dropLast.length = l.length - 1 := by
      rw [List.length_dropLast, length_listSwap]
    intro j hj0 hjl
    rw [length_siftDown, hlen2] at hjl
    have hmain := siftDown_invariant hswo 0 ((listSwap l 0 (l.length - 1)).dropLast)
      0 (Nat.le_refl 0) ?_ ?_ j hj0 (by rw [hlen2]; exact hjl) (Nat.zero_le _)
    · exact hmain
    · intro m hm0 hml hkm hpm0
      rw [hlen2] at hml
      have hpm_lt : pidx m < m := by unfold pidx; omega
      have edrop : ∀ t, t ≠ 0 → t < l.length - 1 →
          (listSwap l 0 (l.length - 1)).dropLast[t]? = l[t]? := by
        intro t ht0 htl
        rw [List.getElem?_dropLast, length_listSwap, if_pos htl,
          getElem?_listSwap hl (by omega), if_neg (by omega), if_neg ht0]
      rw [cmpAt_congr (edrop m (by omega) hml) (edrop (pidx m) hpm0 (by omega))]
      exact hh m hm0 (by omega)
    · intro c hcl hne hpc hple
      exact absurd rfl hne

/-- Central invariant lemma for the sift-up loop of `insert`: if every edge
not incident to position `i` satisfies the heap relation, and the children
of `i` are not less than the element at `i` nor than the element at `i`'s
parent, then after sifting up from `i` the whole heap relation holds. -/
theorem siftUp_invariant {cmp : α → α → Bool} (hswo : SWO cmp) (l : List α) (i : Nat) :
    i < l.length → l.length ≤ USIZE →
    (∀ j, 0 < j → j < l.length → j ≠ i → pidx j ≠ i →
      cmpAt cmp l j (pidx j) = false) →
    (∀ c, 0 < c → c < l.length → pidx c = i → i ≠ 0 →
      cmpAt cmp l c (pidx i) = false) →
    (∀ c, 0 < c → c < l.length → pidx c = i → cmpAt cmp l c i = false) →
    isHeap cmp (siftUp cmp l i) := by
  induction l, i using siftUp.induct cmp with
  | case2 l i hg =>
    intro hi hU ha hb hc
    rw [siftUp, dif_neg hg]
    intro j hj0 hjl
    by_cases hpji : pidx j = i
    · rw [hpji]
      exact hc j hj0 hjl hpji
    · by_cases hji : j = i
      · subst hji
        have hiU : j < USIZE := by omega
        have hpw : parentWrap j = pidx j := parentWrap_eq_pidx j (by omega) hiU
        cases hcmp : cmpAt cmp l j (parentWrap j)
        · rw [← hpw]
          exact hcmp
        · exact absurd ⟨by omega, hcmp⟩ hg
      · exact ha j hj0 hjl hji hpji
  | case1 l i hg ih =>
    intro hi hU ha hb hc
    obtain ⟨hi0, hcmp⟩ := hg
    have hiU : i < USIZE := by omega
    have hpw : parentWrap i = pidx i := parentWrap_eq_pidx i hi0 hiU
    have hpi : pidx i < i := by unfold pidx; omega
    have hpl : parentWrap i < l.length := by omega
    have hswap := fun m => getElem?_listSwap hi hpl m
    have epp : (listSwap l i (parentWrap i))[parentWrap i]? = l[i]? := by
      rw [hswap (parentWrap i), if_pos rfl]
    have eii : (listSwap l i (parentWrap i))[i]? = l[parentWrap i]? := by
      rw [hswap i, if_neg (by omega), if_pos rfl]
    have eother : ∀ m, m ≠ i → m ≠ parentWrap i →
        (listSwap l i (parentWrap i))[m]? = l[m]? := by
      intro m h1 h2
      rw [hswap m, if_neg h2, if_neg h1]
    rw [siftUp, dif_pos ⟨hi0, hcmp⟩]
    apply ih (by rw [length_listSwap]; omega) (by rw [length_listSwap]; omega)
    · -- edges not incident to the new position `parentWrap i`
      intro j hj0 hjl hjp hpjp
      rw [length_listSwap] at hjl
      by_cases hji : j = i
      · subst hji
        rw [hpw] at hpjp
        exact absurd rfl hpjp
      · by_cases hpji : pidx j = i
        · have e2 : (listSwap l i (parentWrap i))[pidx j]? = l[parentWrap i]? := by
            rw [hpji]
            exact eii
          rw [cmpAt_congr (eother j hji hjp) e2, hpw]
          exact hb j hj0 hjl hpji hi0
        · have e2 : (listSwap l i (parentWrap i))[pidx j]? = l[pidx j]? :=
            eother (pidx j) hpji hpjp
          rw [cmpAt_congr (eother j hji hjp) e2]
          exact ha j hj0 hjl hji hpji
    · -- children of the new position vs its parent
      intro d hd0 hdl hpd hp0
      rw [length_listSwap] at hdl
      have hdp : d ≠ parentWrap i := by
        unfold pidx at hpd; omega
      have hppw : pidx (parentWrap i) < parentWrap i := by unfold pidx; omega
      have e2 : (listSwap l i (parentWrap i))[pidx (parentWrap i)]?
          = l[pidx (parentWrap i)]? := eother _ (by omega) (by omega)
      by_cases hdi : d = i
      · rw [hdi, cmpAt_congr eii e2]
        exact ha (parentWrap i) (by omega) (by omega) (by omega) (by omega)
      · rw [cmpAt_congr (eother d hdi hdp) e2]
        have h6 : cmpAt cmp l d (parentWrap i) = false := by
          have h6a := ha d hd0 hdl hdi (by rw [hpd]; omega)
          rw [hpd] at h6a
          exact h6a
        have h7 : cmpAt cmp l (parentWrap i) (pidx (parentWrap i)) = false :=
          ha (parentWrap i) (by omega) (by omega) (by omega) (by omega)
        exact cmpAt_negTrans hswo (by omega) hpl (by omega) h6 h7
    · -- children of the new position vs the moved-up element
      intro d hd0 hdl hpd
      rw [length_listSwap] at hdl
      have hdp : d ≠ parentWrap i := by
        unfold pidx at hpd; omega
      by_cases hdi : d = i
      · rw [hdi, cmpAt_congr eii epp]
        exact cmpAt_asymm hswo hi hpl hcmp
      · rw [cmpAt_congr (eother d hdi hdp) epp]
        cases h8 : cmpAt cmp l d i
        · rfl
        · exfalso
          have h9 := cmpAt_trans hswo hdl hi hpl h8 hcmp
          have h10 : cmpAt cmp l d (parentWrap i) = false := by
            have h10a := ha d hd0 hdl hdi (by rw [hpd]; omega)
            rw [hpd] at h10a
            exact h10a
          rw [h10] at h9
          exact absurd h9 (by simp)

theorem isHeap_insert {cmp : α → α → Bool} (hswo : SWO cmp) {l : List α}
    (hh : isHeap cmp l) (hlen : l.length < USIZE) (x : α) :
    isHeap cmp (insert cmp l x) := by
  unfold insert
  have hlx : (l ++ [x]).length = l.length + 1 := by simp
  apply siftUp_invariant hswo (l ++ [x]) ((l ++ [x]).length - 1)
  · rw [hlx]
    omega
  · rw [hlx]
    omega
  · intro j hj0 hjl hji hpji
    rw [hlx] at hjl hji
    have hjlen : j < l.length := by omega
    have e1 : (l ++ [x])[j]? = l[j]? := List.getElem?_append_left hjlen
    have e2 : (l ++ [x])[pidx j]? = l[pidx j]? :=
      List.getElem?_append_left (by unfold pidx; omega)
    rw [cmpAt_congr e1 e2]
    exact hh j hj0 hjlen
  · intro c hc0 hcl hpc hne
    exfalso
    rw [hlx] at hcl hpc
    unfold pidx at hpc
    omega
  · intro c hc0 hcl hpc
    exfalso
    rw [hlx] at hcl hpc
    unfold pidx at hpc
    omega

/-- In a heap, no element is less than the root. -/
theorem isHeap_root_min {cmp : α → α → Bool} (hswo : SWO cmp) {l : List α}
    (hh : isHeap cmp l) : ∀ j, j < l.length → cmpAt cmp l j 0 = false := by
  intro j
  induction j using Nat.strong_induction_on with
  | _ j ih =>
    intro hjl
    rcases Nat.eq_zero_or_pos j with h0 | hj0
    · subst h0
      rw [cmpAt_eq hjl hjl]
      exact hswo.1 _
    · have hp : pidx j < j := by unfold pidx; omega
      have h1 := hh j hj0 hjl
      have h2 := ih (pidx j) hp (by omega)
      exact cmpAt_negTrans hswo hjl (by omega) (by omega) h1 h2

/-! ### Reachable states -/

/-- A public mutating operation on an already-constructed heap. -/
inductive HOp (α : Type u) where
  | ins : α → HOp α
  | take : HOp α

/-- Apply one public operation to the heap contents. -/
def applyHOp (cmp : α → α → Bool) (l : List α) : HOp α → List α
  | HOp.ins x => insert cmp l x
  | HOp.take => (take_front cmp l).2

/-- Run a sequence of public operations. -/
def runHOps (cmp : α → α → Bool) (l : List α) : List (HOp α) → List α
  | [] => l
  | op :: ops => runHOps cmp (applyHOp cmp l op) ops

theorem runHOps_isHeap {cmp : α → α → Bool} (hswo : SWO cmp) :
    ∀ (ops : List (HOp α)) (l : List α), isHeap cmp l →
      l.length + ops.length ≤ USIZE → isHeap cmp (runHOps cmp l ops) := by
  intro ops
  induction ops with
  | nil => intro l hh _; exact hh
  | cons op ops ih =>
    intro l hh hlen
    rw [runHOps]
    cases op with
    | ins x =>
      apply ih _ (isHeap_insert hswo hh (by simp at hlen; omega) x)
      rw [length_insert]
      simp at hlen ⊢
      omega
    | take =>
      apply ih _ (isHeap_take_front_snd hswo hh)
      rw [length_take_front_snd]
      simp at hlen ⊢
      omega

/-! ### Drain: repeated extraction is sorted -/

theorem take_front_fst_of_ne_nil (cmp : α → α → Bool) {l : List α}
    (h : 0 < l.length) :
    (take_front cmp l).1 = some (l[0]) := by
  rw [take_front_of_ne_nil cmp (List.length_pos.mp h)]
  exact List.getElem?_eq_getElem _

theorem take_front_cons_perm (cmp : α → α → Bool) {l : List α}
    (h : 0 < l.length) :
    List.Perm ((l[0]) :: (take_front cmp l).2) l := by
  have h1 := take_front_perm cmp l
  rw [take_front_fst_of_ne_nil cmp h] at h1
  simp only [Option.toList_some] at h1
  exact (List.perm_append_singleton _ _).symm.trans h1

theorem take_front_rest_min {cmp : α → α → Bool} (hswo : SWO cmp) {l : List α}
    (hh : isHeap cmp l) (h : 0 < l.length) :
    ∀ x ∈ (take_front cmp l).2, cmp x (l[0]) = false := by
  intro x hx
  have hxl : x ∈ l := by
    have hp := take_front_cons_perm cmp h
    exact hp.mem_iff.mp (List.mem_cons_of_mem _ hx)
  obtain ⟨j, hj, hje⟩ := List.mem_iff_getElem.mp hxl
  have h1 := isHeap_root_min hswo hh j hj
  rw [cmpAt_eq hj h] at h1
  rw [← hje]
  exact h1

theorem drainFuel_spec {cmp : α → α → Bool} (hswo : SWO cmp) :
    ∀ (n : Nat) (l : List α), isHeap cmp l → l.length ≤ n →
      List.Perm (drainFuel cmp l n) l ∧
      List.Pairwise (fun a b => cmp b a = false) (drainFuel cmp l n) := by
  intro n
  induction n with
  | zero =>
    intro l _ hlen
    have hnil : l = [] := List.length_eq_zero.mp (by omega)
    subst hnil
    exact ⟨List.Perm.refl _, List.Pairwise.nil⟩
  | succ n ih =>
    intro l hh hlen
    by_cases hne : l = []
    · subst hne
      rw [drainFuel, take_front_nil]
      exact ⟨List.Perm.refl _, List.Pairwise.nil⟩
    · have h0 : 0 < l.length := List.length_pos.mpr hne
      have hfst := take_front_fst_of_ne_nil cmp h0
      have hsnd_heap := isHeap_take_front_snd hswo hh
      have hsnd_len := length_take_front_snd cmp l
      obtain ⟨ihp, ihs⟩ := ih (take_front cmp l).2 hsnd_heap (by omega)
      have hstep : drainFuel cmp l (n + 1)
          = (l[0]) :: drainFuel cmp (take_front cmp l).2 n := by
        rw [drainFuel]
        have : take_front cmp l
            = (some (l[0]), (take_front cmp l).2) := by
          rw [← hfst]
        rw [this]
      rw [hstep]
      constructor
      · exact (ihp.cons _).trans (take_front_cons_perm cmp h0)
      · apply List.Pairwise.cons
        · intro b hb
          exact take_front_rest_min hswo hh h0 b (ihp.mem_iff.mp hb)
        · exact ihs

theorem drain_spec {cmp : α → α → Bool} (hswo : SWO cmp) {l : List α}
    (hh : isHeap cmp l) :
    List.Perm (drain cmp l) l ∧
    List.Pairwise (fun a b => cmp b a = false) (drain cmp l) :=
  drainFuel_spec hswo l.length l hh (Nat.le_refl _)

theorem takeFrontSeq_drain {cmp : α → α → Bool} (hswo : SWO cmp) :
    ∀ (n : Nat) (l : List α), isHeap cmp l → l.length = n →
      takeFrontSeq cmp l (n + 1) = (drainFuel cmp l n).map some ++ [none] := by
  intro n
  induction n with
  | zero =>
    intro l _ hlen
    have hnil : l = [] := List.length_eq_zero.mp hlen
    subst hnil
    rfl
  | succ n ih =>
    intro l hh hlen
    have hne : l ≠ [] := by
      intro hc
      subst hc
      simp at hlen
    have h0 : 0 < l.length := List.length_pos.mpr hne
    have hfst := take_front_fst_of_ne_nil cmp h0
    have heq : take_front cmp l = (some (l[0]), (take_front cmp l).2) := by
      rw [← hfst]
    rw [takeFrontSeq, drainFuel, heq]
    simp only [List.map_cons, List.cons_append, List.cons.injEq, true_and]
    apply ih
    · exact isHeap_take_front_snd hswo hh
    · rw [length_take_front_snd]
      omega

/-! ### Bounds-checked, fuel-bounded variants

These variants perform exactly the element accesses of the Rust code (with
its short-circuit evaluation order) but return `none` as soon as an access
is out of range — or when the explicit iteration budget `fuel` runs out.
Proving them equal to `some` of the direct functions shows both that every
access of the loops is in range and that the loops finish within the stated
iteration bounds. -/

def cmpAtChecked (cmp : α → α → Bool) (l : List α) (i j : Nat) : Option Bool :=
  match l[i]?, l[j]? with
  | some a, some b => some (cmp a b)
  | _, _ => none

def listSwapChecked (l : List α) (i j : Nat) : Option (List α) :=
  match l[i]?, l[j]? with
  | some a, some b => some ((l.set i b).set j a)
  | _, _ => none

/-- The `sift_down` loop condition with Rust's short-circuit evaluation:
`heap[left]`, `heap[i]` are read only when `left < len`, and `heap[right]`,
`heap[i]` only when the first disjunct is false and `right < len`. -/
def siftDownGuardChecked (cmp : α → α → Bool) (l : List α) (i : Nat) : Option Bool :=
  if i * 2 + 1 < l.length then
    match cmpAtChecked cmp l (i * 2 + 1) i with
    | none => none
    | some b1 =>
      if b1 then some true
      else if i * 2 + 2 < l.length then cmpAtChecked cmp l (i * 2 + 2) i
      else some false
  else some false

/-- The `smallest` selection of `sift_down` with checked accesses. -/
def smallestChildChecked (cmp : α → α → Bool) (l : List α) (i : Nat) : Option Nat :=
  if i * 2 + 2 < l.length then
    match cmpAtChecked cmp l (i * 2 + 1) (i * 2 + 2) with
    | none => none
    | some b => some (if b then i * 2 + 1 else i * 2 + 2)
  else some (i * 2 + 1)

/-- `sift_down` with checked accesses and an explicit iteration budget. -/
def siftDownChecked (cmp : α → α → Bool) : Nat → List α → Nat → Option (List α)
  | 0, _, _ => none
  | fuel + 1, l, i =>
    match siftDownGuardChecked cmp l i with
    | none => none
    | some false => some l
    | some true =>
      match smallestChildChecked cmp l i with
      | none => none
      | some c =>
        match listSwapChecked l i c with
        | none => none
        | some l2 => siftDownChecked cmp fuel l2 c

/-- The sift-up loop of `insert` with checked accesses and an explicit
iteration budget.  The `i = 0` exit is taken before any access, exactly as
the short-circuit `i != 0 && self.cmp(...)` of the source. -/
def siftUpChecked (cmp : α → α → Bool) : Nat → List α → Nat → Option (List α)
  | 0, _, _ => none
  | fuel + 1, l, i =>
    if i = 0 then some l
    else
      match cmpAtChecked cmp l i (parentWrap i) with
      | none => none
      | some b =>
        if b then
          match listSwapChecked l i (parentWrap i) with
          | none => none
          | some l2 => siftUpChecked cmp fuel l2 (parentWrap i)
        else some l

/-- `insert` with checked accesses: push, then checked sift-up with budget
one more than the sift-up loop can ever take. -/
def insertChecked (cmp : α → α → Bool) (l : List α) (x : α) : Option (List α) :=
  siftUpChecked cmp ((l ++ [x]).length + 1) (l ++ [x]) ((l ++ [x]).length - 1)

/-- Modelled from the spec: "establishes the heap invariant by applying
sift-down to every position from the last internal node down to the root
(heapify)".  A position `i` is internal exactly when it has a child, i.e.
`2 * i + 1 < len`, so the internal positions are `0, …, len / 2 - 1` and the
spec's heapify runs `sift_down` at `len / 2 - 1, …, 0`. -/
def heapifyFromLastInternal (cmp : α → α → Bool) (l : List α) : List α :=
  heapifyLoop cmp l (l.length / 2)

/-- The comparison `|a, b| a < b` used by `PriorityQueue::new` on `Nat`. -/
def natLt : Nat → Nat → Bool := fun a b => decide (a < b)

/-- The comparison `|a, b| a > b` of the reversed-ordering test. -/
def natGt : Nat → Nat → Bool := fun a b => decide (a > b)

/-! ### The checked variants agree with the direct functions -/

theorem cmpAtChecked_eq {cmp : α → α → Bool} {l : List α} {i j : Nat}
    (hi : i < l.length) (hj : j < l.length) :
    cmpAtChecked cmp l i j = some (cmpAt cmp l i j) := by
  unfold cmpAtChecked cmpAt
  rw [List.getElem?_eq_getElem hi, List.getElem?_eq_getElem hj]

theorem listSwapChecked_eq {l : List α} {i j : Nat}
    (hi : i < l.length) (hj : j < l.length) :
    listSwapChecked l i j = some (listSwap l i j) := by
  unfold listSwapChecked listSwap
  rw [List.getElem?_eq_getElem hi, List.getElem?_eq_getElem hj]

theorem siftDownGuardChecked_eq (cmp : α → α → Bool) (l : List α) (i : Nat) :
    siftDownGuardChecked cmp l i = some (siftDownGuard cmp l i) := by
  unfold siftDownGuardChecked siftDownGuard
  by_cases hL : i * 2 + 1 < l.length
  · have hI : i < l.length := by omega
    rw [if_pos hL, cmpAtChecked_eq hL hI]
    cases hb : cmpAt cmp l (i * 2 + 1) i
    · by_cases hR : i * 2 + 2 < l.length
      · rw [cmpAtChecked_eq hR hI]
        simp [hL, hR]
      · simp [hL, hR]
    · simp [hL]
  · have hR : ¬ i * 2 + 2 < l.length := by omega
    rw [if_neg hL]
    simp [hL, hR]

theorem smallestChild_lt_length {cmp : α → α → Bool} {l : List α} {i : Nat}
    (hg : siftDownGuard cmp l i = true) : smallestChild cmp l i < l.length := by
  have hL := siftDownGuard_left_lt hg
  unfold smallestChild
  by_cases hR : i * 2 + 2 < l.length
  · rw [if_pos hR]
    split <;> omega
  · rw [if_neg hR]
    omega

theorem smallestChildChecked_eq {cmp : α → α → Bool} {l : List α} {i : Nat}
    (hL : i * 2 + 1 < l.length) :
    smallestChildChecked cmp l i = some (smallestChild cmp l i) := by
  unfold smallestChildChecked smallestChild
  by_cases hR : i * 2 + 2 < l.length
  · rw [if_pos hR, if_pos hR, cmpAtChecked_eq hL hR]
  · rw [if_neg hR, if_neg hR]

theorem siftDownChecked_eq (cmp : α → α → Bool) :
    ∀ (fuel : Nat) (l : List α) (i : Nat), l.length - i < fuel →
      siftDownChecked cmp fuel l i = some (siftDown cmp l i) := by
  intro fuel
  induction fuel with
  | zero => intro l i h; omega
  | succ fuel ih =>
    intro l i h
    rw [siftDownChecked, siftDownGuardChecked_eq]
    cases hg : siftDownGuard cmp l i
    · rw [siftDown, dif_neg (by simp [hg])]
    · have hL := siftDownGuard_left_lt hg
      have hI : i < l.length := by omega
      have hcl := smallestChild_lt_length hg
      have hco := lt_smallestChild cmp l i
      simp only [smallestChildChecked_eq hL, listSwapChecked_eq hI hcl]
      rw [siftDown, dif_pos hg]
      exact ih _ _ (by rw [length_listSwap]; omega)

theorem siftUpChecked_eq (cmp : α → α → Bool) :
    ∀ (fuel : Nat) (l : List α) (i : Nat), i < fuel → i < l.length →
      siftUpChecked cmp fuel l i = some (siftUp cmp l i) := by
  intro fuel
  induction fuel with
  | zero => intro l i h _; omega
  | succ fuel ih =>
    intro l i hfu hi
    rw [siftUpChecked]
    by_cases h0 : i = 0
    · rw [if_pos h0, siftUp, dif_neg (by simp [h0])]
    · have hp : parentWrap i < i := parentWrap_lt i h0
      rw [if_neg h0, cmpAtChecked_eq hi (by omega)]
      cases hc : cmpAt cmp l i (parentWrap i)
      · rw [siftUp, dif_neg (by simp [hc])]
        rfl
      · rw [listSwapChecked_eq hi (by omega)]
        rw [siftUp, dif_pos ⟨h0, hc⟩]
        exact ih _ _ (by omega) (by rw [length_listSwap]; omega)

theorem insertChecked_eq (cmp : α → α → Bool) (l : List α) (x : α) :
    insertChecked cmp l x = some (insert cmp l x) := by
  unfold insertChecked insert
  apply siftUpChecked_eq <;> simp <;> omega

/-! ### Heapify touches only internal nodes -/

theorem siftDown_leaf {cmp : α → α → Bool} {l : List α} {i : Nat}
    (h : l.length ≤ i * 2 + 1) : siftDown cmp l i = l := by
  rw [siftDown, dif_neg]
  intro hg
  exact absurd (siftDownGuard_left_lt hg) (by omega)

theorem heapifyLoop_leaf_drop (cmp : α → α → Bool) (l : List α) :
    ∀ m : Nat, heapifyLoop cmp l (l.length / 2 + m) = heapifyLoop cmp l (l.length / 2) := by
  intro m
  induction m with
  | zero => rfl
  | succ m ih =>
    have hleaf : siftDown cmp l (l.length / 2 + m) = l := siftDown_leaf (by omega)
    have hstep : l.length / 2 + (m + 1) = (l.length / 2 + m) + 1 := by omega
    rw [hstep, heapifyLoop, hleaf, ih]

theorem heapify_eq_heapifyFromLastInternal (cmp : α → α → Bool) (l : List α) :
    heapify cmp l = heapifyFromLastInternal cmp l := by
  unfold heapify heapifyFromLastInternal
  have h := heapifyLoop_leaf_drop cmp l (l.length - l.length / 2)
  have he : l.length / 2 + (l.length - l.length / 2) = l.length := by omega
  rw [he] at h
  exact h

/-! ### `natLt` and `natGt` are strict weak orderings -/

theorem swo_natLt : SWO natLt := by
  refine ⟨?_, ?_, ?_⟩ <;> intro a <;> simp [natLt] <;> omega

theorem swo_natGt : SWO natGt := by
  refine ⟨?_, ?_, ?_⟩ <;> intro a <;> simp [natGt] <;> omega

/-- Reformulation of `isHeap` whose bounded quantifier is decidable by
`Nat.decidableBallLT`. -/
theorem isHeap_of_forall (cmp : α → α → Bool) (l : List α)
    (h : ∀ i, i < l.length → (0 < i → cmpAt cmp l i (pidx i) = false)) :
    isHeap cmp l := fun i h1 h2 => h i h2 h1

/-! ### Claim theorems -/

/-- C1: building a heap via `with_ordering` (of which `new` is the
`a < b` instance) from any finite sequence and repeatedly calling
`take_front` yields the stored elements (a permutation of the input) as a
sequence sorted ascending under the ordering, and the call immediately
after the last element yields `none`. -/
theorem extraction_sorted {cmp : α → α → Bool} (hswo : SWO cmp) (l : List α) :
    List.Perm (drain cmp (with_ordering cmp l)) l ∧
    List.Pairwise (fun a b => cmp b a = false) (drain cmp (with_ordering cmp l)) ∧
    takeFrontSeq cmp (with_ordering cmp l) (l.length + 1)
      = (drain cmp (with_ordering cmp l)).map some ++ [none] := by
  unfold with_ordering
  have hh := isHeap_heapify hswo l
  have hlen := length_heapify cmp l
  obtain ⟨hperm, hsort⟩ := drain_spec hswo hh
  refine ⟨hperm.trans (heapify_perm cmp l), hsort, ?_⟩
  have h3 := takeFrontSeq_drain hswo (heapify cmp l).length (heapify cmp l) hh rfl
  rw [hlen] at h3
  unfold drain
  rw [hlen]
  exact h3

theorem extraction_sorted_witness :
    SWO natLt ∧
    (List.Perm (drain natLt (with_ordering natLt [3, 1, 2])) [3, 1, 2] ∧
     List.Pairwise (fun a b => natLt b a = false)
       (drain natLt (with_ordering natLt [3, 1, 2])) ∧
     takeFrontSeq natLt (with_ordering natLt [3, 1, 2])
         (([3, 1, 2] : List Nat).length + 1)
       = (drain natLt (with_ordering natLt [3, 1, 2])).map some ++ [none]) :=
  ⟨swo_natLt, extraction_sorted swo_natLt [3, 1, 2]⟩

/-- C2: the heap-order invariant holds after construction and after every
sequence of `insert`/`take_front` calls, i.e. in every reachable state
(the bound `l0.length + ops.length ≤ USIZE` holds for every real `Vec`,
whose length never exceeds the `usize` range). -/
theorem heap_invariant_reachable {cmp : α → α → Bool} (hswo : SWO cmp)
    (l0 : List α) (ops : List (HOp α))
    (hlen : l0.length + ops.length ≤ USIZE) :
    isHeap cmp (runHOps cmp (with_ordering cmp l0) ops) := by
  apply runHOps_isHeap hswo ops _ (isHeap_heapify hswo l0)
  rw [length_heapify]
  exact hlen

theorem heap_invariant_reachable_witness :
    SWO natLt ∧
    ([3, 1, 2] : List Nat).length + ([HOp.ins 0, HOp.take] : List (HOp Nat)).length ≤ USIZE ∧
    isHeap natLt (runHOps natLt (with_ordering natLt [3, 1, 2]) [HOp.ins 0, HOp.take]) :=
  ⟨swo_natLt, by decide,
    heap_invariant_reachable swo_natLt [3, 1, 2] [HOp.ins 0, HOp.take] (by decide)⟩

/-- C3: `take_front` returns `none` on the empty heap and `some` of the
element that was at the root (index 0) on any non-empty heap satisfying the
invariant, and that element is minimal among the heap's contents. -/
theorem take_front_extracts_root_min {cmp : α → α → Bool} (hswo : SWO cmp)
    {a : α} {t : List α} (hh : isHeap cmp (a :: t)) :
    (take_front cmp (a :: t)).1 = some a ∧
    (a :: t).all (fun x => !cmp x a) = true ∧
    (take_front cmp ([] : List α)).1 = none := by
  have hne : (a :: t) ≠ [] := by simp
  refine ⟨?_, ?_, rfl⟩
  · rw [take_front_fst_of_ne_nil cmp (List.length_pos.mpr hne)]
    rfl
  · rw [List.all_eq_true]
    intro x hx
    obtain ⟨j, hj, hje⟩ := List.mem_iff_getElem.mp hx
    have h1 := isHeap_root_min hswo hh j hj
    rw [cmpAt_eq hj (by simp)] at h1
    simp only [List.getElem_cons_zero] at h1
    rw [← hje]
    simp [h1]

theorem isHeap_natLt_132 : isHeap natLt [1, 3, 2] :=
  isHeap_of_forall _ _ (by decide)

theorem take_front_extracts_root_min_witness :
    SWO natLt ∧ isHeap natLt [1, 3, 2] ∧
    ((take_front natLt (1 :: [3, 2])).1 = some 1 ∧
     (1 :: [3, 2]).all (fun x => !natLt x 1) = true ∧
     (take_front natLt ([] : List Nat)).1 = none) :=
  ⟨swo_natLt, isHeap_natLt_132,
    take_front_extracts_root_min swo_natLt isHeap_natLt_132⟩

/-- C4: `insert` increases the number of stored elements by exactly one;
`take_front` decreases it by exactly one on a non-empty heap, and on the
empty heap returns the absence value and leaves the state unchanged. -/
theorem size_conservation (cmp : α → α → Bool) (l : List α) (x : α) :
    (insert cmp l x).length = l.length + 1 ∧
    (take_front cmp l).2.length = l.length - 1 ∧
    take_front cmp ([] : List α) = (none, ([] : List α)) :=
  ⟨length_insert cmp l x, length_take_front_snd cmp l, take_front_nil cmp⟩

/-- C5: every element access of `insert`'s sift-up loop and of `sift_down`
is in range: the bounds-checked executions (which return `none` on any
out-of-range access) succeed and compute the same results; in particular
the sift-up loop at `i = 0` exits before the wrapped-around parent index is
ever used. -/
theorem index_safety (cmp : α → α → Bool) (l : List α) (x : α) (i : Nat) :
    insertChecked cmp l x = some (insert cmp l x) ∧
    siftDownChecked cmp (l.length + 1) l i = some (siftDown cmp l i) ∧
    siftUpChecked cmp 1 l 0 = some l :=
  ⟨insertChecked_eq cmp l x, siftDownChecked_eq cmp _ l i (by omega), rfl⟩

/-- C6: the construction's heapify (sift-down at every index from
`len - 1` down to `0`) produces exactly the same heap state as applying
sift-down only to the internal nodes, from the last internal node down to
the root, as the spec describes. -/
theorem heapify_internal_equiv (cmp : α → α → Bool) (l : List α) :
    with_ordering cmp l = heapifyFromLastInternal cmp l ∧
    heapify cmp l = heapifyFromLastInternal cmp l :=
  ⟨heapify_eq_heapifyFromLastInternal cmp l,
    heapify_eq_heapifyFromLastInternal cmp l⟩

/-- C7: any number of `take_front` calls on an empty heap return the
absence value every time and leave the heap contents unchanged. -/
theorem empty_take_front_idempotent (cmp : α → α → Bool) (n : Nat) :
    takeFrontSeq cmp ([] : List α) n = List.replicate n none ∧
    take_front cmp ([] : List α) = (none, ([] : List α)) := by
  refine ⟨?_, rfl⟩
  induction n with
  | zero => rfl
  | succ n ih =>
    rw [takeFrontSeq, take_front_nil]
    simp only [List.replicate_succ]
    rw [ih]

/-- C8: draining the heap built with `a > b` from `[3,2,6,5,1,4]` yields
`6,5,4,3,2,1` then `none`; with the default ordering it yields
`1,2,3,4,5,6` then `none`. -/
theorem custom_ordering_drains :
    takeFrontSeq natGt (with_ordering natGt [3, 2, 6, 5, 1, 4]) 7
      = [some 6, some 5, some 4, some 3, some 2, some 1, none] ∧
    takeFrontSeq natLt (new [3, 2, 6, 5, 1, 4]) 7
      = [some 1, some 2, some 3, some 4, some 5, some 6, none] := by
  constructor <;>
    simp [takeFrontSeq, new, with_ordering, heapify, heapifyLoop, take_front,
      siftDown, siftDownGuard, cmpAt, smallestChild, listSwap, natLt, natGt]

/-- C9: every operation preserves the stored multiset exactly:
construction permutes the input, `insert` adds one occurrence, and
`take_front` removes exactly the returned element (`toList` of the result
is `[v]` for `some v` and `[]` for `none`). -/
theorem multiset_preservation (cmp : α → α → Bool) (data l : List α) (x : α) :
    List.Perm (with_ordering cmp data) data ∧
    List.Perm (insert cmp l x) (l ++ [x]) ∧
    List.Perm ((take_front cmp l).2 ++ (take_front cmp l).1.toList) l :=
  ⟨heapify_perm cmp data, insert_perm cmp l x, take_front_perm cmp l⟩

/-- C10: the loops of every operation terminate for every comparison
predicate, with explicit iteration bounds: the sift-down position strictly
increases and is bounded by the length, so `l.length - i` iterations
suffice; the sift-up position strictly decreases, so `i` iterations
suffice.  No strict-weak-ordering assumption is made. -/
theorem operations_terminate (cmp : α → α → Bool) (l : List α) (i fuel : Nat) :
    (l.length - i < fuel →
      siftDownChecked cmp fuel l i = some (siftDown cmp l i)) ∧
    (i < fuel → i < l.length →
      siftUpChecked cmp fuel l i = some (siftUp cmp l i)) :=
  ⟨fun h => siftDownChecked_eq cmp fuel l i h,
    fun h1 h2 => siftUpChecked_eq cmp fuel l i h1 h2⟩

end PriorityQueue
